import Mathlib

/-!
# Verification of the passh credential store

Shallow embedding of the core of the `passh` repository:

* `pkg/crypto/ssh_encrypt.go` — `SSHEncryptor.Encrypt` / `SSHEncryptor.Decrypt`
  (the envelope "cipher"; in the source it is an explicit placeholder that
  base64-encodes the plaintext and appends the base64 of each recipient's
  marshalled public key, colon-separated);
* `pkg/storage/store.go` — `Store.Add`, `Store.Get`, `Store.List`, `Store.Delete`
  over a root directory.

Go byte strings are modelled as `List Char` (the separators and base64
alphabet are ASCII, where Go's byte-wise order and Lean's codepoint order
agree); byte slices as `List Nat` with values `< 256`.
-/

namespace Passh

/-! ## Base64 (Go `encoding/base64`, `StdEncoding`)

`EncodeToString` uses the standard alphabet with `=` padding.
`DecodeString` skips `\r` and `\n`, requires the (filtered) input length to
be a multiple of four, accepts `=` padding only at the end of the final
quantum, and (non-strict mode) ignores non-zero trailing bits. -/

def b64Alphabet : List Char :=
  "ABCDEFGHIJKLMNOPQRSTUVWXYZabcdefghijklmnopqrstuvwxyz0123456789+/".toList

def b64Char (n : Nat) : Char := b64Alphabet.getD n 'A'

def b64Val (c : Char) : Option Nat := List.findIdx? (fun a => a = c) b64Alphabet

/-- Go's `StdEncoding.EncodeToString`: three input bytes become four
alphabet characters; a final group of one or two bytes is padded with `=`. -/
def base64Encode : List Nat → List Char
  | [] => []
  | [b1] => [b64Char (b1 / 4), b64Char (b1 % 4 * 16), '=', '=']
  | [b1, b2] =>
      [b64Char (b1 / 4), b64Char (b1 % 4 * 16 + b2 / 16), b64Char (b2 % 16 * 4), '=']
  | b1 :: b2 :: b3 :: rest =>
      b64Char (b1 / 4) :: b64Char (b1 % 4 * 16 + b2 / 16) ::
      b64Char (b2 % 16 * 4 + b3 / 64) :: b64Char (b3 % 64) :: base64Encode rest

/-- Quantum-by-quantum decoding of a (newline-filtered) base64 string:
groups of four characters, `=` padding allowed only in the last group. -/
def b64DecodeQuanta : List Char → Option (List Nat)
  | [] => some []
  | c1 :: c2 :: c3 :: c4 :: rest =>
    match b64Val c1, b64Val c2 with
    | some v1, some v2 =>
      if c3 = '=' then
        if c4 = '=' ∧ rest = [] then some [v1 * 4 + v2 / 16] else none
      else
        match b64Val c3 with
        | some v3 =>
          if c4 = '=' then
            if rest = [] then some [v1 * 4 + v2 / 16, v2 % 16 * 16 + v3 / 4] else none
          else
            match b64Val c4 with
            | some v4 =>
              (b64DecodeQuanta rest).map
                (fun tl => (v1 * 4 + v2 / 16) :: (v2 % 16 * 16 + v3 / 4) ::
                           (v3 % 4 * 64 + v4) :: tl)
            | none => none
        | none => none
    | _, _ => none
  | _ => none

/-- Go's `StdEncoding.DecodeString` (which first discards `\r` and `\n`). -/
def base64Decode (s : List Char) : Option (List Nat) :=
  b64DecodeQuanta (s.filter (fun c => !(c = '\n' ∨ c = '\r')))

/-! ## Colon splitting (Go `strings.Split(s, ":")`) -/

/-- `strings.Split(s, ":")`: the list of colon-free fields; always nonempty,
`Split("", ":") = [""]`. -/
def splitOnColon : List Char → List (List Char)
  | [] => [[]]
  | c :: cs =>
    let r := splitOnColon cs
    if c = ':' then [] :: r else (c :: r.headI) :: r.tail

/-! ## `SSHEncryptor` (src/pkg/crypto/ssh_encrypt.go) -/

/-- `SSHEncryptor`'s key material.  A public key is modelled by its
`Marshal()` byte string; a private key (`ssh.Signer`) is modelled by the
marshalled bytes of its associated public key — `Encrypt`/`Decrypt` use no
other attribute of either.  The `agentClient`/`useAgent` fields only affect
key loading, never `Encrypt`/`Decrypt`, and are omitted. -/
structure SSHEncryptor where
  publicKeys : List (List Nat)
  privateKeys : List (List Nat)

/-- The typed error vocabulary of `Encrypt`/`Decrypt` in the source
(each constructor is one `errors.New`/`fmt.Errorf` site). -/
inductive CryptoError where
  | noPublicKeys    -- "no public keys available for encryption"
  | noPrivateKeys   -- "no private keys available for decryption"
  | invalidFormat   -- "invalid encrypted data format"
  | decodeFailed    -- "failed to decode encrypted data: ..."
  deriving DecidableEq, Repr

/-- `SSHEncryptor.Encrypt` (ssh_encrypt.go lines 116–150).  `rand` is the
byte stream of `crypto/rand.Reader`; the source draws 32 bytes from it as
`randomKey` and — as its own comments admit — never uses them: the output is
`base64(data)` followed by `":" ++ base64(pubKey.Marshal())` per registered
public key. -/
def SSHEncryptor.Encrypt (e : SSHEncryptor) (rand : Nat → Nat) (data : List Nat) :
    Except CryptoError (List Char) :=
  if e.publicKeys.length = 0 then .error .noPublicKeys
  else
    let _randomKey := (List.range 32).map rand
    let encryptedBlocks := e.publicKeys.map (fun pubKey => base64Encode pubKey)
    let encodedData := base64Encode data
    .ok (encryptedBlocks.foldl (fun result block => result ++ ':' :: block) encodedData)

/-- `SSHEncryptor.Decrypt` (ssh_encrypt.go lines 153–172): requires at least
one private key, splits on `":"`, requires at least two parts, and returns
the base64 decoding of the first part; the private keys themselves and all
remaining parts are ignored. -/
def SSHEncryptor.Decrypt (e : SSHEncryptor) (encryptedData : List Char) :
    Except CryptoError (List Nat) :=
  if e.privateKeys.length = 0 then .error .noPrivateKeys
  else
    let parts := splitOnColon encryptedData
    if parts.length < 2 then .error .invalidFormat
    else
      match base64Decode parts.headI with
      | none => .error .decodeFailed
      | some decodedData => .ok decodedData

/-! ## Lemmas about the base64 model -/

theorem b64Val_b64Char : ∀ n < 64, b64Val (b64Char n) = some n := by decide

theorem b64Char_ne (n : Nat) :
    b64Char n ≠ '=' ∧ b64Char n ≠ ':' ∧ b64Char n ≠ '\n' ∧ b64Char n ≠ '\r' := by
  rcases Nat.lt_or_ge n 64 with h | h
  · revert n h
    decide
  · have hlen : b64Alphabet.length = 64 := by decide
    have : b64Char n = 'A' := by
      unfold b64Char
      rw [List.getD_eq_getElem?_getD, List.getElem?_eq_none (by omega)]
      rfl
    rw [this]
    decide

/-- Every character emitted by `base64Encode` is an alphabet character or
the padding `=`. -/
theorem mem_base64Encode :
    ∀ (bs : List Nat) (c : Char), c ∈ base64Encode bs → (∃ n, c = b64Char n) ∨ c = '='
  | [], c, h => by simp [base64Encode] at h
  | [b1], c, h => by
    simp only [base64Encode, List.mem_cons, List.not_mem_nil, or_false] at h
    rcases h with h | h | h | h
    all_goals first
      | exact Or.inl ⟨_, h⟩
      | exact Or.inr h
  | [b1, b2], c, h => by
    simp only [base64Encode, List.mem_cons, List.not_mem_nil, or_false] at h
    rcases h with h | h | h | h
    all_goals first
      | exact Or.inl ⟨_, h⟩
      | exact Or.inr h
  | b1 :: b2 :: b3 :: rest, c, h => by
    simp only [base64Encode, List.mem_cons] at h
    rcases h with h | h | h | h | h
    · exact Or.inl ⟨_, h⟩
    · exact Or.inl ⟨_, h⟩
    · exact Or.inl ⟨_, h⟩
    · exact Or.inl ⟨_, h⟩
    · exact mem_base64Encode rest c h

theorem base64Encode_no_colon {bs : List Nat} {c : Char} (h : c ∈ base64Encode bs) :
    c ≠ ':' := by
  rcases mem_base64Encode bs c h with ⟨n, rfl⟩ | rfl
  · exact (b64Char_ne n).2.1
  · decide

theorem filter_base64Encode (bs : List Nat) :
    (base64Encode bs).filter (fun c => !(c = '\n' ∨ c = '\r')) = base64Encode bs := by
  rw [List.filter_eq_self]
  intro c hc
  rcases mem_base64Encode bs c hc with ⟨n, rfl⟩ | rfl
  · have := (b64Char_ne n).2.2
    simp [this.1, this.2]
  · decide

/-- Decoding inverts encoding, quantum by quantum. -/
theorem b64DecodeQuanta_base64Encode :
    ∀ (bs : List Nat), (∀ b ∈ bs, b < 256) → b64DecodeQuanta (base64Encode bs) = some bs
  | [], _ => rfl
  | [b1], h => by
    have hb1 : b1 < 256 := h b1 (by simp)
    have h1 : b1 / 4 < 64 := by omega
    have h2 : b1 % 4 * 16 < 64 := by omega
    simp only [base64Encode, b64DecodeQuanta, b64Val_b64Char _ h1, b64Val_b64Char _ h2]
    simp
    omega
  | [b1, b2], h => by
    have hb1 : b1 < 256 := h b1 (by simp)
    have hb2 : b2 < 256 := h b2 (by simp)
    have h1 : b1 / 4 < 64 := by omega
    have h2 : b1 % 4 * 16 + b2 / 16 < 64 := by omega
    have h3 : b2 % 16 * 4 < 64 := by omega
    have hne : b64Char (b2 % 16 * 4) ≠ '=' := (b64Char_ne _).1
    simp only [base64Encode, b64DecodeQuanta, b64Val_b64Char _ h1, b64Val_b64Char _ h2,
      b64Val_b64Char _ h3]
    simp [hne]
    omega
  | b1 :: b2 :: b3 :: rest, h => by
    have hb1 : b1 < 256 := h b1 (by simp)
    have hb2 : b2 < 256 := h b2 (by simp)
    have hb3 : b3 < 256 := h b3 (by simp)
    have h1 : b1 / 4 < 64 := by omega
    have h2 : b1 % 4 * 16 + b2 / 16 < 64 := by omega
    have h3 : b2 % 16 * 4 + b3 / 64 < 64 := by omega
    have h4 : b3 % 64 < 64 := by omega
    have hne3 : b64Char (b2 % 16 * 4 + b3 / 64) ≠ '=' := (b64Char_ne _).1
    have hne4 : b64Char (b3 % 64) ≠ '=' := (b64Char_ne _).1
    have ih := b64DecodeQuanta_base64Encode rest (fun b hb => h b (by simp [hb]))
    simp only [base64Encode, b64DecodeQuanta, b64Val_b64Char _ h1, b64Val_b64Char _ h2,
      b64Val_b64Char _ h3, b64Val_b64Char _ h4]
    simp [hne3, hne4, ih]
    omega

theorem base64Decode_base64Encode {bs : List Nat} (h : ∀ b ∈ bs, b < 256) :
    base64Decode (base64Encode bs) = some bs := by
  rw [base64Decode, filter_base64Encode, b64DecodeQuanta_base64Encode bs h]

/-! ## Lemmas about colon splitting -/

theorem splitOnColon_ne_nil : ∀ cs : List Char, splitOnColon cs ≠ []
  | [] => by simp [splitOnColon]
  | c :: cs => by
    simp only [splitOnColon]
    split <;> simp

theorem splitOnColon_append {a : List Char} (b : List Char) (ha : ':' ∉ a) :
    splitOnColon (a ++ ':' :: b) = a :: splitOnColon b := by
  induction a with
  | nil => simp [splitOnColon]
  | cons c a ih =>
    have hc : c ≠ ':' := fun h => ha (h ▸ List.mem_cons_self c a)
    have ih' := ih (fun h => ha (List.mem_cons_of_mem c h))
    simp only [List.cons_append, splitOnColon, if_neg hc]
    rw [List.append_eq, ih']
    rfl

theorem splitOnColon_no_colon : ∀ cs : List Char, ':' ∉ cs → splitOnColon cs = [cs]
  | [], _ => rfl
  | c :: cs, h => by
    have hc : c ≠ ':' := fun hh => h (hh ▸ List.mem_cons_self c cs)
    have ih := splitOnColon_no_colon cs (fun hh => h (List.mem_cons_of_mem c hh))
    simp [splitOnColon, ih, if_neg hc]

/-- The colon-joined tail appended by `Encrypt`'s `foldl` loop. -/
def joinColon : List (List Char) → List Char
  | [] => []
  | b :: bs => ':' :: b ++ joinColon bs

theorem foldl_colon : ∀ (blocks : List (List Char)) (init : List Char),
    blocks.foldl (fun result block => result ++ ':' :: block) init = init ++ joinColon blocks
  | [], init => by simp [joinColon]
  | b :: bs, init => by
    simp only [List.foldl_cons, foldl_colon bs, joinColon]
    simp

/-! ## Shape of the envelope produced by `Encrypt` -/

/-- For a nonempty recipient list, `Encrypt` returns `base64(data)` followed
by one `":" ++ base64(pubKey)` block per recipient. -/
theorem Encrypt_eq_ok {pubs : List (List Nat)} (privs : List (List Nat))
    (rand : Nat → Nat) (data : List Nat) (h : pubs ≠ []) :
    SSHEncryptor.Encrypt ⟨pubs, privs⟩ rand data =
      .ok (base64Encode data ++ joinColon (pubs.map base64Encode)) := by
  unfold SSHEncryptor.Encrypt
  rw [if_neg (by simp [h])]
  simp only [foldl_colon]

/-- Splitting the envelope on `":"` puts the base64 plaintext first. -/
theorem splitOnColon_envelope (data : List Nat) {blocks : List (List Char)}
    (hb : blocks ≠ []) :
    splitOnColon (base64Encode data ++ joinColon blocks) =
      base64Encode data :: splitOnColon (blocks.headI ++ joinColon blocks.tail) := by
  cases blocks with
  | nil => cases hb rfl
  | cons b bs =>
    show splitOnColon (base64Encode data ++ ':' :: (b ++ joinColon bs)) = _
    rw [splitOnColon_append _ (fun hc => base64Encode_no_colon hc rfl)]
    rfl

/-- C1: for every non-empty plaintext and non-empty recipient set,
decrypting the string produced by `Encrypt` with an encryptor holding any
one signer whose public key is among the recipients returns exactly the
plaintext.  (The source's `Decrypt` in fact never consults the signer: it
base64-decodes the first field, so any nonempty private-key list works —
in particular one holding a matching signer, as the claim states.) -/
theorem c1_encrypt_decrypt_roundtrip
    (pubs privsE pubsD : List (List Nat)) (k : List Nat)
    (rand : Nat → Nat) (data : List Nat)
    (hk : k ∈ pubs) (hdata : data ≠ []) (hbytes : ∀ b ∈ data, b < 256) :
    ∃ s, SSHEncryptor.Encrypt ⟨pubs, privsE⟩ rand data = .ok s ∧
         SSHEncryptor.Decrypt ⟨pubsD, [k]⟩ s = .ok data := by
  have hpubs : pubs ≠ [] := List.ne_nil_of_mem hk
  refine ⟨_, Encrypt_eq_ok privsE rand data hpubs, ?_⟩
  have hblocks : pubs.map base64Encode ≠ [] := by simp [hpubs]
  have hsplit := splitOnColon_envelope data hblocks
  have hne := splitOnColon_ne_nil
    ((pubs.map base64Encode).headI ++ joinColon (pubs.map base64Encode).tail)
  have hlen : 0 <
      (splitOnColon
        ((pubs.map base64Encode).headI ++ joinColon (pubs.map base64Encode).tail)).length :=
    List.length_pos.mpr hne
  simp only [SSHEncryptor.Decrypt, hsplit]
  rw [if_neg (by simp)]
  rw [if_neg (by simp only [List.length_cons]; omega)]
  simp [base64Decode_base64Encode hbytes]

theorem c1_witness :
    ([1] : List Nat) ∈ [[1]] ∧ ([104, 105] : List Nat) ≠ [] ∧
    (∀ b ∈ ([104, 105] : List Nat), b < 256) ∧
    ∃ s, SSHEncryptor.Encrypt ⟨[[1]], []⟩ (fun _ => 0) [104, 105] = .ok s ∧
         SSHEncryptor.Decrypt ⟨[], [[1]]⟩ s = .ok [104, 105] :=
  ⟨by decide, by decide, by decide,
   c1_encrypt_decrypt_roundtrip [[1]] [] [] [1] (fun _ => 0) [104, 105]
     (by decide) (by decide) (by decide)⟩

/-- C7: `Encrypt` fails (with the source's "no public keys available for
encryption" error, the spec's `EncryptError`) whenever the registered
recipient set is empty; the method reads but never writes the encryptor's
fields, so the encryptor is unchanged. -/
theorem c7_encrypt_fails_without_recipients (privs : List (List Nat))
    (rand : Nat → Nat) (data : List Nat) :
    SSHEncryptor.Encrypt ⟨[], privs⟩ rand data = .error .noPublicKeys := rfl

/-- C4 is false of the code: `Encrypt` draws 32 random bytes and then
ignores them, so the envelope is a function of the key material and the
plaintext alone — two runs with different randomness produce identical
envelopes, and no fresh content key protects anything. -/
theorem c4_bug_envelope_independent_of_randomness (e : SSHEncryptor)
    (r1 r2 : Nat → Nat) (data : List Nat) :
    SSHEncryptor.Encrypt e r1 data = SSHEncryptor.Encrypt e r2 data := rfl

/-- Flip bit `k` of the character at index `i`. -/
def flipBit (s : List Char) (i k : Nat) : List Char :=
  s.set i (Char.ofNat ((s.getD i ' ').toNat ^^^ 2 ^ k))

/-- C2 is false of the code: flipping a single bit of the ciphertext field
of the envelope for plaintext "hi" (recipient key `[1]`) turns `aGk=` into
`aFk=`, and `Decrypt` happily returns the altered plaintext "hY" instead of
failing with `IntegrityError` — there is no integrity tag at all. -/
theorem c2_bug_bit_flip_accepted :
    SSHEncryptor.Encrypt ⟨[[1]], []⟩ (fun _ => 0) [104, 105] = .ok "aGk=:AQ==".toList ∧
    flipBit "aGk=:AQ==".toList 1 0 = "aFk=:AQ==".toList ∧
    SSHEncryptor.Decrypt ⟨[[1]], [[1]]⟩ "aFk=:AQ==".toList = .ok [104, 89] := by
  refine ⟨rfl, rfl, rfl⟩

/-- C5 is false of the code: an envelope addressed only to the key `[1]` is
decrypted without error by an encryptor holding only a signer for the
unrelated key `[2]` — `Decrypt` never compares fingerprints and returns the
plaintext instead of `AuthError`. -/
theorem c5_bug_unmatched_signer_gets_plaintext :
    ([2] : List Nat) ∉ ([[1]] : List (List Nat)) ∧
    SSHEncryptor.Encrypt ⟨[[1]], []⟩ (fun _ => 0) [104, 105] = .ok "aGk=:AQ==".toList ∧
    SSHEncryptor.Decrypt ⟨[], [[2]]⟩ "aGk=:AQ==".toList = .ok [104, 105] := by
  refine ⟨by decide, rfl, rfl⟩

/-- C9: the first colon-separated field of every envelope is the plain
standard-base64 encoding of the plaintext, so the plaintext is recoverable
from the stored envelope by base64 decoding alone, without any private
key. -/
theorem c9_plaintext_recoverable_without_keys
    (pubs privs : List (List Nat)) (rand : Nat → Nat) (data : List Nat)
    (hpubs : pubs ≠ []) (hbytes : ∀ b ∈ data, b < 256) :
    ∃ s, SSHEncryptor.Encrypt ⟨pubs, privs⟩ rand data = .ok s ∧
         (splitOnColon s).headI = base64Encode data ∧
         base64Decode ((splitOnColon s).headI) = some data := by
  refine ⟨_, Encrypt_eq_ok privs rand data hpubs, ?_⟩
  have hblocks : pubs.map base64Encode ≠ [] := by simp [hpubs]
  rw [splitOnColon_envelope data hblocks]
  exact ⟨rfl, base64Decode_base64Encode hbytes⟩

theorem c9_witness :
    (([[1]] : List (List Nat)) ≠ []) ∧ (∀ b ∈ ([104, 105] : List Nat), b < 256) ∧
    ∃ s, SSHEncryptor.Encrypt ⟨[[1]], []⟩ (fun _ => 0) [104, 105] = .ok s ∧
         (splitOnColon s).headI = base64Encode [104, 105] ∧
         base64Decode ((splitOnColon s).headI) = some [104, 105] :=
  ⟨by decide, by decide,
   c9_plaintext_recoverable_without_keys [[1]] [] (fun _ => 0) [104, 105]
     (by decide) (by decide)⟩

/-- C10: with private keys available, `Decrypt` of a colon-free string
fails with "invalid encrypted data format" (whatever the string's base64
validity), and on strings with at least two colon-separated parts the
result depends only on the first field. -/
theorem c10_decrypt_format_and_first_field (e : SSHEncryptor) (s t : List Char)
    (hpriv : e.privateKeys ≠ []) :
    (':' ∉ s → SSHEncryptor.Decrypt e s = .error .invalidFormat) ∧
    (2 ≤ (splitOnColon s).length → 2 ≤ (splitOnColon t).length →
      (splitOnColon s).headI = (splitOnColon t).headI →
      SSHEncryptor.Decrypt e s = SSHEncryptor.Decrypt e t) := by
  have hp : ¬ e.privateKeys.length = 0 := by simp [hpriv]
  constructor
  · intro hs
    simp only [SSHEncryptor.Decrypt, splitOnColon_no_colon s hs]
    rw [if_neg hp, if_pos (by simp)]
  · intro h1 h2 heq
    simp only [SSHEncryptor.Decrypt]
    rw [if_neg hp, if_neg (by omega), if_neg hp, if_neg (by omega), heq]

theorem c10_witness :
    ((⟨[], [[1]]⟩ : SSHEncryptor).privateKeys ≠ []) ∧
    ((':' ∉ "aGk=".toList →
        SSHEncryptor.Decrypt ⟨[], [[1]]⟩ "aGk=".toList = .error .invalidFormat) ∧
     (2 ≤ (splitOnColon "aGk=".toList).length →
      2 ≤ (splitOnColon "a:b".toList).length →
      (splitOnColon "aGk=".toList).headI = (splitOnColon "a:b".toList).headI →
      SSHEncryptor.Decrypt ⟨[], [[1]]⟩ "aGk=".toList =
        SSHEncryptor.Decrypt ⟨[], [[1]]⟩ "a:b".toList)) :=
  ⟨by decide,
   c10_decrypt_format_and_first_field ⟨[], [[1]]⟩ "aGk=".toList "a:b".toList
     (by decide)⟩

/-! ## Go `path/filepath` on unix (`Clean`, `Join`, `Dir`)

`Store` (src `pkg/storage/store.go`) builds every entry path with
`filepath.Join(s.rootDir, ...)`; `Join` concatenates with `/` and applies
`Clean`, which drops empty and `.` elements and resolves `..` lexically
(popping past the root of a rooted path is impossible; leading `..` of a
relative path are kept). -/

/-- Splitting a path on `'/'` (Go strings modelled as `List Char`). -/
def splitOnSlash : List Char → List (List Char)
  | [] => [[]]
  | c :: cs =>
    let r := splitOnSlash cs
    if c = '/' then [] :: r else (c :: r.headI) :: r.tail

/-- Joining path elements with `'/'`. -/
def intercalateSlash : List (List Char) → List Char
  | [] => []
  | [x] => x
  | x :: xs => x ++ '/' :: intercalateSlash xs

/-- `Clean`'s element loop: `acc` is the output stack (reversed). -/
def cleanRev (rooted : Bool) : List (List Char) → List (List Char) → List (List Char)
  | acc, [] => acc
  | acc, s :: rest =>
    if s = [] ∨ s = ['.'] then cleanRev rooted acc rest
    else if s = ['.', '.'] then
      match acc with
      | [] => if rooted then cleanRev rooted [] rest else cleanRev rooted [['.', '.']] rest
      | a :: acc' =>
        if a = ['.', '.'] then cleanRev rooted (['.', '.'] :: a :: acc') rest
        else cleanRev rooted acc' rest
    else cleanRev rooted (s :: acc) rest

/-- Go `filepath.Clean` (unix separators). -/
def goClean (p : List Char) : List Char :=
  let rooted := match p with | '/' :: _ => true | _ => false
  let out := (cleanRev rooted [] (splitOnSlash p)).reverse
  if out = [] then (if rooted then ['/'] else ['.'])
  else (if rooted then ['/'] else []) ++ intercalateSlash out

/-- Go `filepath.Join` for the two-argument uses in `Store` (`Join` drops
empty elements, joins the rest with `/`, and `Clean`s the result). -/
def goJoin (a b : List Char) : List Char :=
  if a = [] then (if b = [] then [] else goClean b)
  else if b = [] then goClean a
  else goClean (a ++ '/' :: b)

/-- Go `filepath.Dir`: everything up to the final `/`, `Clean`ed; `"."`
when there is no slash. -/
def goDir (p : List Char) : List Char :=
  match p.reverse.dropWhile (fun c => c ≠ '/') with
  | [] => ['.']
  | l => goClean l.reverse

/-! ## `Store` (src `pkg/storage/store.go`)

`Store.Add` is modelled as the list of filesystem operations it performs
plus its result.  The model's filesystem calls always succeed (their error
paths only wrap I/O failures); `FSOp` also names the operations the spec's
atomic-write contract would require (`createTemp`, `rename`) so that their
absence from `Add`'s trace is expressible. -/

structure Store where
  rootDir : List Char
  encryptor : SSHEncryptor

inductive FSOp where
  | mkdirAll (dir : List Char)
  | writeFile (path : List Char) (data : List Char)
  | createTemp (dir pattern : List Char)
  | rename (src dst : List Char)
  deriving DecidableEq

inductive StoreError where
  | encryptionFailed (e : CryptoError)   -- "encryption failed: %w"
  deriving DecidableEq

/-- `Store.Add` (store.go lines 39–59): encrypt, `MkdirAll` the parent of
`Join(rootDir, name)`, then `WriteFile` to `Join(rootDir, name + ".pass")`
directly — the name is never validated and no temporary file or rename is
involved. -/
def Store.Add (s : Store) (rand : Nat → Nat) (name : List Char) (password : List Nat) :
    List FSOp × Except StoreError Unit :=
  match s.encryptor.Encrypt rand password with
  | .error e => ([], .error (.encryptionFailed e))
  | .ok encryptedData =>
    let dir := goDir (goJoin s.rootDir name)
    let filePath := goJoin s.rootDir (name ++ ".pass".toList)
    ([.mkdirAll dir, .writeFile filePath encryptedData], .ok ())

/-- C3 is false of the code: `Store.Add` performs no name validation at
all.  On the store rooted at `/store`, `Add "../escape"` succeeds (no
`ValidationError` — the error type of `Add` cannot even express one) and
writes `/escape.pass`, strictly outside the store root. -/
theorem c3_bug_no_name_validation :
    (Store.Add ⟨"/store".toList, ⟨[[1]], []⟩⟩ (fun _ => 0) "../escape".toList
        [104, 105]).2 = .ok () ∧
    (Store.Add ⟨"/store".toList, ⟨[[1]], []⟩⟩ (fun _ => 0) "../escape".toList
        [104, 105]).1 =
      [.mkdirAll "/".toList, .writeFile "/escape.pass".toList "aGk=:AQ==".toList] ∧
    "/store/".toList.isPrefixOf "/escape.pass".toList = false := by
  refine ⟨rfl, rfl, by decide⟩

/-- C6 is false of the code: no `Store.Add` ever creates a temporary file
or renames anything — its trace is at most a `MkdirAll` followed by a
direct `WriteFile` of the final path. -/
theorem c6_bug_add_never_renames (s : Store) (rand : Nat → Nat)
    (name : List Char) (password : List Nat) :
    ((Store.Add s rand name password).1.all
      (fun op => match op with
        | .rename _ _ => false
        | .createTemp _ _ => false
        | _ => true)) = true := by
  unfold Store.Add
  cases s.encryptor.Encrypt rand password <;> rfl

/-! ## `Store.List` (store.go lines 80–105)

`List` runs `filepath.Walk` over the root directory.  `Walk` visits a
directory's entries in sorted name order (Go's `readDirNames` sorts the
names byte-wise ascending; bytes of UTF-8 and codepoints order alike), and
the callback collects every non-directory whose name ends in `".pass"`,
recording its root-relative path with the extension trimmed.

The directory tree under the root is modelled as `FSNode`; names, like all
Go strings here, are `List Char`, and a relative path is a list of
segments. -/

inductive FSNode where
  | file (content : List Char)
  | dir (children : List (List Char × FSNode))

/-- Byte-wise `<` on names, Go's `sort.Strings` order. -/
def namesLt : List Char → List Char → Bool
  | [], [] => false
  | [], _ :: _ => true
  | _ :: _, [] => false
  | a :: as, b :: bs => if a < b then true else if b < a then false else namesLt as bs

def namesLe (a b : List Char) : Bool := !namesLt b a

/-- Strict lexicographic order on relative paths, segment by segment. -/
def pathLt : List (List Char) → List (List Char) → Bool
  | [], [] => false
  | [], _ :: _ => true
  | _ :: _, [] => false
  | a :: as, b :: bs => if namesLt a b then true else if namesLt b a then false else pathLt as bs

/-- Ordering of `(name, collected paths)` blocks by name, the order in
which `filepath.Walk` visits a directory's entries. -/
def pairLe (a b : List Char × List (List (List Char))) : Prop := namesLe a.1 b.1 = true

instance : DecidableRel pairLe := fun a b =>
  inferInstanceAs (Decidable (namesLe a.1 b.1 = true))

def endsWithPass (s : List Char) : Bool := ".pass".toList.isSuffixOf s

/-- `strings.TrimSuffix(name, ".pass")`. -/
def stripPass (s : List Char) : List Char :=
  if endsWithPass s then s.take (s.length - 5) else s

/-- Trim the `".pass"` extension of a relative path (it sits in the last
segment, as in Go's `TrimSuffix` on the joined path). -/
def stripLastPass : List (List Char) → List (List Char)
  | [] => []
  | [x] => [stripPass x]
  | x :: xs => x :: stripLastPass xs

mutual

/-- Paths (relative, extension still attached) that the walk of node
`node`, reached under name `name`, contributes to `List`'s output, in
visit order: a directory's blocks are emitted in sorted name order. -/
def walkEntry (name : List Char) (node : FSNode) : List (List (List Char)) :=
  match node with
  | .file _ => if endsWithPass name then [[name]] else []
  | .dir cs =>
    (((List.insertionSort pairLe (walkChildren cs)).flatMap (fun nc => nc.2)).map
      (fun p => name :: p))

def walkChildren : List (List Char × FSNode) → List (List Char × List (List (List Char)))
  | [] => []
  | (n, c) :: rest => (n, walkEntry n c) :: walkChildren rest

end

/-- The relative paths of the `.pass` files below the store root (whose
children are `cs`), in `filepath.Walk` order. -/
def storeListPaths (cs : List (List Char × FSNode)) : List (List (List Char)) :=
  (List.insertionSort pairLe (walkChildren cs)).flatMap (fun nc => nc.2)

/-- `Store.List`: every `.pass` file's relative path, extension stripped,
in walk order. -/
def storeList (cs : List (List Char × FSNode)) : List (List (List Char)) :=
  (storeListPaths cs).map stripLastPass

/-- `p` locates a regular file named `*.pass` in the tree. -/
inductive EntryAt : List (List Char × FSNode) → List (List Char) → Prop where
  | file {cs : List (List Char × FSNode)} {n content} :
      (n, FSNode.file content) ∈ cs → endsWithPass n = true → EntryAt cs [n]
  | dir {cs : List (List Char × FSNode)} {n cs' p} :
      (n, FSNode.dir cs') ∈ cs → EntryAt cs' p → EntryAt cs (n :: p)

mutual

/-- Well-formedness of a directory tree: each directory's names are
distinct (true of every real filesystem). -/
def wfNode : FSNode → Bool
  | .file _ => true
  | .dir cs => wfChildren cs

def wfChildren : List (List Char × FSNode) → Bool
  | [] => true
  | (n, c) :: rest =>
    !(rest.any (fun nc => nc.1 == n)) && wfNode c && wfChildren rest

end

/-- The store holding the entries `a/b` and `a`: a directory `a` with file
`b.pass` beside a file `a.pass`. -/
def exTree : List (List Char × FSNode) :=
  [("a".toList, .dir [("b.pass".toList, .file [])]), ("a.pass".toList, .file [])]

/-- C8's ordering clause is false of the code: on `exTree`, `List` returns
`a/b` before `a`, although `a` precedes `a/b` in lexicographic order of the
names — `filepath.Walk` orders by directory-entry name (where `a` < `a.pass`
makes the directory come first), not by stripped entry name. -/
theorem c8_counterexample_walk_order_not_name_order :
    storeList exTree = [["a".toList, "b".toList], ["a".toList]] ∧
    pathLt ["a".toList] ["a".toList, "b".toList] = true := by
  refine ⟨by decide, by decide⟩

/-! ## Order facts about `namesLt`/`pathLt` -/

theorem namesLt_irrefl : ∀ a : List Char, namesLt a a = false
  | [] => rfl
  | c :: a => by simp [namesLt, namesLt_irrefl a]

theorem namesLt_asymm : ∀ a b : List Char, namesLt a b = true → namesLt b a = false
  | [], [], _ => rfl
  | [], _ :: _, _ => rfl
  | _ :: _, [], h => by simp [namesLt] at h
  | a :: as, b :: bs, h => by
    by_cases hab : a < b
    · simp [namesLt, lt_asymm hab, hab]
    · simp only [namesLt, if_neg hab] at h
      by_cases hba : b < a
      · simp [hba] at h
      · simp only [if_neg hba] at h
        simp [namesLt, hab, hba, namesLt_asymm as bs h]

theorem namesLt_total : ∀ a b : List Char, a ≠ b → namesLt a b = true ∨ namesLt b a = true
  | [], [], h => absurd rfl h
  | [], _ :: _, _ => Or.inl rfl
  | _ :: _, [], _ => Or.inr rfl
  | a :: as, b :: bs, h => by
    rcases lt_trichotomy a b with hab | rfl | hba
    · exact Or.inl (by simp [namesLt, hab])
    · have hne : as ≠ bs := fun hh => h (by rw [hh])
      rcases namesLt_total as bs hne with ht | ht
      · exact Or.inl (by simp [namesLt, lt_irrefl, ht])
      · exact Or.inr (by simp [namesLt, lt_irrefl, ht])
    · exact Or.inr (by simp [namesLt, hba])

theorem namesLt_trans :
    ∀ a b c : List Char, namesLt a b = true → namesLt b c = true → namesLt a c = true
  | [], _, _ :: _, _, _ => rfl
  | [], _ :: _, [], _, h => by simp [namesLt] at h
  | [], [], [], h, _ => by simp [namesLt] at h
  | _ :: _, [], _, h, _ => by simp [namesLt] at h
  | _ :: _, _ :: _, [], _, h => by simp [namesLt] at h
  | a :: as, b :: bs, c :: cs, h1, h2 => by
    by_cases hab : a < b
    · by_cases hbc : b < c
      · simp [namesLt, lt_trans hab hbc]
      · simp only [namesLt, if_neg hbc] at h2
        by_cases hcb : c < b
        · simp [hcb] at h2
        · have : b = c := le_antisymm (le_of_not_lt hcb) (le_of_not_lt hbc)
          subst this
          simp [namesLt, hab]
    · simp only [namesLt, if_neg hab] at h1
      by_cases hba : b < a
      · simp [hba] at h1
      · simp only [if_neg hba] at h1
        have : a = b := le_antisymm (le_of_not_lt hba) (le_of_not_lt hab)
        subst this
        by_cases hbc : a < c
        · simp [namesLt, hbc]
        · simp only [namesLt, if_neg hbc] at h2
          by_cases hcb : c < a
          · simp [hcb] at h2
          · simp only [if_neg hcb] at h2
            simp [namesLt, hbc, hcb, namesLt_trans as bs cs h1 h2]

theorem namesLt_of_le_of_ne {a b : List Char} (hle : namesLe a b = true) (hne : a ≠ b) :
    namesLt a b = true := by
  rcases namesLt_total a b hne with h | h
  · exact h
  · rw [namesLe, h] at hle
    simp at hle

instance : IsTotal (List Char × List (List (List Char))) pairLe where
  total a b := by
    unfold pairLe namesLe
    by_cases h : namesLt b.1 a.1 = true
    · right
      rw [namesLt_asymm _ _ h]
      rfl
    · left
      simp [h]

instance : IsTrans (List Char × List (List (List Char))) pairLe where
  trans a b c h1 h2 := by
    unfold pairLe namesLe at h1 h2 ⊢
    simp only [Bool.not_eq_true'] at h1 h2 ⊢
    by_contra hc
    simp only [Bool.not_eq_false] at hc
    rcases eq_or_ne b.1 a.1 with he | hne
    · rw [he] at h2
      rw [h2] at hc
      cases hc
    · rcases namesLt_total b.1 a.1 hne with h | h
      · rw [h] at h1
        cases h1
      · rw [namesLt_trans _ _ _ hc h] at h2
        cases h2

/-! ## Membership in `Store.List`'s output -/

theorem walkChildren_eq_map :
    ∀ cs : List (List Char × FSNode),
      walkChildren cs = cs.map (fun nc => (nc.1, walkEntry nc.1 nc.2))
  | [] => rfl
  | (n, c) :: rest => by
    rw [walkChildren, walkChildren_eq_map rest]
    rfl

theorem mem_storeListPaths_iff_exists :
    ∀ (cs : List (List Char × FSNode)) (p : List (List Char)),
      p ∈ storeListPaths cs ↔ ∃ nc ∈ cs, p ∈ walkEntry nc.1 nc.2 := by
  intro cs p
  unfold storeListPaths
  rw [List.mem_flatMap]
  constructor
  · rintro ⟨pr, hpr, hp⟩
    have : pr ∈ walkChildren cs := ((List.perm_insertionSort pairLe _).mem_iff).mp hpr
    rw [walkChildren_eq_map] at this
    rcases List.mem_map.mp this with ⟨nc, hnc, rfl⟩
    exact ⟨nc, hnc, hp⟩
  · rintro ⟨nc, hnc, hp⟩
    refine ⟨(nc.1, walkEntry nc.1 nc.2), ?_, hp⟩
    rw [(List.perm_insertionSort pairLe _).mem_iff, walkChildren_eq_map]
    exact List.mem_map.mpr ⟨nc, hnc, rfl⟩

theorem entryAt_of_mem_storeListPaths :
    ∀ (p : List (List Char)) (cs : List (List Char × FSNode)),
      p ∈ storeListPaths cs → EntryAt cs p
  | p, cs, hp => by
    rcases (mem_storeListPaths_iff_exists cs p).mp hp with ⟨⟨n, c⟩, hnc, hw⟩
    cases c with
    | file content =>
      rw [walkEntry] at hw
      by_cases hps : endsWithPass n = true
      · rw [if_pos hps] at hw
        simp only [List.mem_singleton] at hw
        subst hw
        exact EntryAt.file hnc hps
      · rw [if_neg hps] at hw
        cases hw
    | dir cs' =>
      rw [walkEntry] at hw
      rcases List.mem_map.mp hw with ⟨q, hq, hpq⟩
      subst hpq
      exact EntryAt.dir hnc (entryAt_of_mem_storeListPaths q cs' hq)
  termination_by p => p.length
  decreasing_by
    rw [← hpq]
    simp

theorem mem_storeListPaths_of_entryAt {cs : List (List Char × FSNode)}
    {p : List (List Char)} (h : EntryAt cs p) : p ∈ storeListPaths cs := by
  induction h with
  | file hmem hps =>
    exact (mem_storeListPaths_iff_exists _ _).mpr
      ⟨_, hmem, by rw [walkEntry, if_pos hps]; simp⟩
  | dir hmem hent ih =>
    refine (mem_storeListPaths_iff_exists _ _).mpr ⟨_, hmem, ?_⟩
    rw [walkEntry]
    exact List.mem_map.mpr ⟨_, ih, rfl⟩

theorem mem_storeListPaths (cs : List (List Char × FSNode)) (p : List (List Char)) :
    p ∈ storeListPaths cs ↔ EntryAt cs p :=
  ⟨entryAt_of_mem_storeListPaths p cs, mem_storeListPaths_of_entryAt⟩

/-! ## Sortedness of `Store.List`'s output -/

theorem pathLt_cons {m n : List Char} (h : namesLt m n = true) (p q : List (List Char)) :
    pathLt (m :: p) (n :: q) = true := by
  simp [pathLt, h]

theorem pathLt_cons_same {m : List Char} {p q : List (List Char)}
    (h : pathLt p q = true) : pathLt (m :: p) (m :: q) = true := by
  simp [pathLt, namesLt_irrefl, h]

theorem walkEntry_starts (n : List Char) (c : FSNode) {p : List (List Char)}
    (hp : p ∈ walkEntry n c) : ∃ q, p = n :: q := by
  cases c with
  | file content =>
    rw [walkEntry] at hp
    split at hp
    · simp only [List.mem_singleton] at hp
      exact ⟨[], hp⟩
    · cases hp
  | dir cs' =>
    rw [walkEntry] at hp
    rcases List.mem_map.mp hp with ⟨q, _, rfl⟩
    exact ⟨q, rfl⟩

/-- Flattening blocks preserves pairwiseness when each block is pairwise
and distinct blocks are element-wise related. -/
theorem pairwise_blocks {R : List (List Char) → List (List Char) → Prop} :
    ∀ (prs : List (List Char × List (List (List Char)))),
      (∀ pr ∈ prs, List.Pairwise R pr.2) →
      List.Pairwise (fun a b => ∀ x ∈ a.2, ∀ y ∈ b.2, R x y) prs →
      List.Pairwise R (prs.flatMap (fun nc => nc.2))
  | [], _, _ => by simp
  | pr :: rest, hin, hcross => by
    rw [List.flatMap_cons, List.pairwise_append]
    obtain ⟨hhead, htail⟩ := List.pairwise_cons.mp hcross
    refine ⟨hin pr (by simp), pairwise_blocks rest (fun x hx => hin x (by simp [hx])) htail, ?_⟩
    intro x hx y hy
    rcases List.mem_flatMap.mp hy with ⟨b, hb, hyb⟩
    exact hhead b hb x hx y hyb

theorem wfNode_of_mem :
    ∀ {cs : List (List Char × FSNode)} {n : List Char} {c : FSNode},
      wfChildren cs = true → (n, c) ∈ cs → wfNode c = true
  | (m, d) :: rest, n, c, hwf, hmem => by
    rw [wfChildren, Bool.and_eq_true, Bool.and_eq_true] at hwf
    rcases List.mem_cons.mp hmem with he | hmem'
    · cases he
      exact hwf.1.2
    · exact wfNode_of_mem hwf.2 hmem'

theorem wfChildren_nodup :
    ∀ (cs : List (List Char × FSNode)), wfChildren cs = true →
      (cs.map (fun nc => nc.1)).Nodup
  | [], _ => by simp
  | (n, c) :: rest, hwf => by
    rw [wfChildren, Bool.and_eq_true, Bool.and_eq_true] at hwf
    obtain ⟨⟨hany, _⟩, hrest⟩ := hwf
    rw [List.map_cons, List.nodup_cons]
    refine ⟨?_, wfChildren_nodup rest hrest⟩
    intro hmem
    rcases List.mem_map.mp hmem with ⟨nc, hnc, he⟩
    rw [Bool.not_eq_true', List.any_eq_false] at hany
    exact hany nc hnc (by simp [he])

theorem walkChildren_map_fst (cs : List (List Char × FSNode)) :
    (walkChildren cs).map (fun nc => nc.1) = cs.map (fun nc => nc.1) := by
  rw [walkChildren_eq_map, List.map_map]
  rfl

/-- Under filesystem well-formedness (distinct names per directory), the
walk emits the `.pass` paths in strictly increasing segment-wise
lexicographic order. -/
theorem sorted_storeListPaths :
    ∀ (cs : List (List Char × FSNode)), wfChildren cs = true →
      List.Pairwise (fun p q => pathLt p q = true) (storeListPaths cs)
  | cs, hwf => by
    have hperm := List.perm_insertionSort pairLe (walkChildren cs)
    unfold storeListPaths
    apply pairwise_blocks
    · intro pr hpr
      have hpr' : pr ∈ walkChildren cs := hperm.mem_iff.mp hpr
      rw [walkChildren_eq_map] at hpr'
      rcases List.mem_map.mp hpr' with ⟨⟨n, c⟩, hnc, rfl⟩
      cases c with
      | file content =>
        rw [walkEntry]
        split <;> simp
      | dir cs' =>
        have hwf' : wfChildren cs' = true := by
          have := wfNode_of_mem hwf hnc
          rwa [wfNode] at this
        have hrec := sorted_storeListPaths cs' hwf'
        rw [walkEntry, List.pairwise_map]
        unfold storeListPaths at hrec
        exact hrec.imp (fun h => pathLt_cons_same h)
    · have hs : List.Pairwise pairLe (List.insertionSort pairLe (walkChildren cs)) :=
        List.sorted_insertionSort pairLe (walkChildren cs)
      have hnd : ((List.insertionSort pairLe (walkChildren cs)).map
          (fun nc => nc.1)).Nodup := by
        rw [(hperm.map (fun nc => nc.1)).nodup_iff, walkChildren_map_fst]
        exact wfChildren_nodup cs hwf
      have hnd' : List.Pairwise (fun a b : List Char × List (List (List Char)) =>
          a.1 ≠ b.1) (List.insertionSort pairLe (walkChildren cs)) :=
        List.pairwise_map.mp hnd
      have hstarts : ∀ pr ∈ List.insertionSort pairLe (walkChildren cs),
          ∀ x ∈ pr.2, ∃ t, x = pr.1 :: t := by
        intro pr hpr x hx
        have hpr' : pr ∈ walkChildren cs := hperm.mem_iff.mp hpr
        rw [walkChildren_eq_map] at hpr'
        rcases List.mem_map.mp hpr' with ⟨⟨n, c⟩, _, rfl⟩
        exact walkEntry_starts n c hx
      refine (hs.and hnd').imp_of_mem ?_
      rintro a b ha hb ⟨hle, hne⟩ x hx y hy
      rcases hstarts a ha x hx with ⟨xt, rfl⟩
      rcases hstarts b hb y hy with ⟨yt, rfl⟩
      exact pathLt_cons (namesLt_of_le_of_ne hle hne) xt yt
  termination_by cs => sizeOf cs
  decreasing_by
    have h1 := List.sizeOf_lt_of_mem hnc
    simp only [Prod.mk.sizeOf_spec, FSNode.dir.sizeOf_spec] at h1
    omega

theorem pathLt_irrefl : ∀ p : List (List Char), pathLt p p = false
  | [] => rfl
  | s :: p => by simp [pathLt, namesLt_irrefl, pathLt_irrefl p]

/-- C8, amended: `Store.List` returns exactly the relative paths of the
`.pass` files (extension stripped, never a directory, each entry once),
deterministically in `filepath.Walk` order — strictly increasing
segment-wise lexicographic order of the relative file paths with the
extension still attached — rather than in lexicographic order of the
stripped names (the two differ when an entry's file shares its stripped
name with a directory, as `c8_counterexample_walk_order_not_name_order`
shows). -/
theorem c8_amended_list_exact_and_walk_sorted
    (cs : List (List Char × FSNode)) (hwf : wfChildren cs = true) :
    (∀ p, p ∈ storeListPaths cs ↔ EntryAt cs p) ∧
    List.Pairwise (fun p q => pathLt p q = true) (storeListPaths cs) ∧
    (storeListPaths cs).Nodup ∧
    storeList cs = (storeListPaths cs).map stripLastPass :=
  ⟨fun p => mem_storeListPaths cs p,
   sorted_storeListPaths cs hwf,
   (sorted_storeListPaths cs hwf).imp
     (fun h he => by subst he; rw [pathLt_irrefl] at h; cases h),
   rfl⟩

theorem c8_amended_witness :
    wfChildren exTree = true ∧
    ((∀ p, p ∈ storeListPaths exTree ↔ EntryAt exTree p) ∧
     List.Pairwise (fun p q => pathLt p q = true) (storeListPaths exTree) ∧
     (storeListPaths exTree).Nodup ∧
     storeList exTree = (storeListPaths exTree).map stripLastPass) :=
  ⟨by decide, c8_amended_list_exact_and_walk_sorted exTree (by decide)⟩

end Passh
